import Mathlib

/-!
Verification development for the momento-proxy request-handling engine.

The definitions below are shallow embeddings of the Rust source:
  - `src/src/protocol/memcache/get.rs` (`get`, `run_get`)
  - `src/src/protocol/memcache/set.rs` (`set`)
  - `src/src/cache.rs` (`SyncMokaCache`, `FoyerCache`)
  - `src/src/cache_backend.rs` (`MomentoCacheBackend`, `LocalMemcachedBackend`)
  - `src/src/frontend.rs` (`handle_memcache_client_concrete` writer task)
  - `src/src/momento_proxy.rs` (`Cache::buffer_size`)
  - `src/src/main.rs` (local cache construction in `spawn`)

Bytes are modelled as `List Nat`, machine integers as `Nat`/`Int` with
explicit bounds, instants and epoch times as `Nat` seconds on a shared
timeline, and the asynchronous backend as an explicit outcome parameter.
-/

namespace MomentoProxy

/-- PAGESIZE constant from `src/src/main.rs` line 64. -/
def PAGESIZE : Nat := 4096

/-- Embeds `Cache::buffer_size` from `src/src/momento_proxy.rs` lines 133-138:
`std::cmp::max(1, self.buffer_size.get()).div_ceil(PAGESIZE)`.
Rust `a.div_ceil(b)` on unsigned integers is `(a + b - 1) / b`. -/
def buffer_size (config_buffer_size : Nat) : Nat :=
  (max 1 config_buffer_size + PAGESIZE - 1) / PAGESIZE

/-- Big-endian byte encoding of a `u32`, as produced by Rust
`flags.to_be_bytes()` in `src/src/protocol/memcache/set.rs` line 32. -/
def beBytes (f : Nat) : List Nat :=
  [f / 2 ^ 24 % 256, f / 2 ^ 16 % 256, f / 2 ^ 8 % 256, f % 256]

/-- Big-endian `u32` decode of the first four bytes of a buffer, as in
`u32::from_be_bytes([value[0], value[1], value[2], value[3]])` at
`src/src/protocol/memcache/get.rs` line 91. -/
def decodeBE4 (v : List Nat) : Nat :=
  v.getD 0 0 * 2 ^ 24 + v.getD 1 0 * 2 ^ 16 + v.getD 2 0 * 2 ^ 8 + v.getD 3 0

/-- Embeds `protocol_memcache::Value` as used by the proxy: a key, a 32-bit
flags field, and the data payload (the CAS field is always `None` in this
code base). -/
structure MValue where
  key : List Nat
  flags : Nat
  data : List Nat
deriving DecidableEq

/-- Embeds `CacheValue` from `src/src/cache.rs` lines 41-44; the only
variant is `Memcached { value }`. -/
inductive CacheValue where
  | memcached (value : MValue)
deriving DecidableEq

/-- Embeds `CacheEntry` from `src/src/cache.rs` lines 46-50: a cached value
plus its absolute expiry instant (seconds on the model timeline). -/
structure CacheEntry where
  value : CacheValue
  expire_at : Nat
deriving DecidableEq

/-- Embeds `CacheEntry::into_value` from `src/src/cache.rs` lines 62-64. -/
def CacheEntry.into_value (e : CacheEntry) : CacheValue := e.value

/-- Five years in seconds: the TTL clamp `Duration::from_secs(5 * 365 * 24 * 3600)`
used at `src/src/cache.rs` lines 86, 129 and 191. -/
def fiveYearsSecs : Nat := 5 * 365 * 24 * 3600

/-- Seconds component of Rust `Duration::MAX`, which `src/src/main.rs`
line 339 uses to represent an unlimited TTL before clamping. -/
def durationMaxSecs : Nat := 2 ^ 64 - 1

/-- Embeds `sync_moka::SyncMokaCache` from `src/src/cache.rs` lines 71-107
(and textually identical `async_moka::AsyncMokaCache`, lines 114-152, which
differs only in `await` points). The moka cache internals are modelled as an
association list of entries, newest first; the weigher and eviction policy
are opaque to every claim and are not modelled. The `MCache` handle used by
the frontend has this synchronous interface (`get`/`set`/`delete` are called
without `await` in `get.rs`, `set.rs` and `frontend.rs`). -/
structure SyncMokaCache where
  entries : List (List Nat × CacheEntry)
  ttl : Nat
deriving DecidableEq

namespace SyncMokaCache

/-- Embeds `SyncMokaCache::new` (`src/src/cache.rs` lines 78-88): the
configured TTL is clamped to at most five years at construction. -/
def new (max_bytes : Nat) (ttl : Nat) : SyncMokaCache :=
  { entries := [], ttl := min ttl fiveYearsSecs }

/-- Embeds `SyncMokaCache::set` (`src/src/cache.rs` lines 94-102): the entry
is stamped with `expire_at = Instant::now() + self.ttl`. Insertion prepends;
`get` sees the newest entry for a key, matching moka overwrite semantics. -/
def set (c : SyncMokaCache) (now : Nat) (key : List Nat) (value : CacheValue) :
    SyncMokaCache :=
  { c with entries := (key, ⟨value, now + c.ttl⟩) :: c.entries }

/-- Embeds `SyncMokaCache::get` (`src/src/cache.rs` lines 90-92) together
with the moka expiry policy `MCacheExpiry` (lines 329-350): an entry is
returned only while `now < expire_at`. -/
def get (c : SyncMokaCache) (now : Nat) (key : List Nat) : Option CacheEntry :=
  match c.entries.find? (fun p => decide (p.1 = key)) with
  | some p => if now < p.2.expire_at then some p.2 else none
  | none => none

/-- Embeds `SyncMokaCache::delete` (`src/src/cache.rs` lines 104-106). -/
def delete (c : SyncMokaCache) (key : List Nat) : SyncMokaCache :=
  { c with entries := c.entries.filter (fun p => !decide (p.1 = key)) }

end SyncMokaCache

/-- Embeds the local-cache TTL selection in `src/src/main.rs` lines 338-342:
a configured `memory_cache_ttl_seconds` of 0 becomes `Duration::MAX`
(unlimited before clamping), otherwise the configured seconds. -/
def memoryCacheConfigTtl (memory_cache_ttl_seconds : Nat) : Nat :=
  if memory_cache_ttl_seconds = 0 then durationMaxSecs
  else memory_cache_ttl_seconds

/-- Embeds the possible wire responses composed by the memcache handlers:
`Response::values`, `Response::not_found`, `Response::stored`,
`Response::server_error`, `Response::client_error` from `protocol_memcache`
as used in `get.rs` and `set.rs`. -/
inductive Response where
  | values (vs : List MValue)
  | notFound
  | stored (noreply : Bool)
  | serverError (m : String)
  | clientError (m : String)
deriving DecidableEq

/-- Observable outcome of the 200 ms-deadlined backend `get` call
`timeout(Duration::from_millis(200), client.get(cache_name, key))` in
`src/src/protocol/memcache/get.rs` line 79: a hit with raw bytes, a miss,
a backend error with its message, or a deadline expiry. -/
inductive BackendOutcome where
  | hit (v : List Nat)
  | miss
  | err (m : String)
  | timedOut
deriving DecidableEq

/-- True for the outcomes the code maps to `Err(..)`: backend errors and
timeouts. -/
def BackendOutcome.isErr : BackendOutcome → Bool
  | .err _ => true
  | .timedOut => true
  | _ => false

/-- Embeds `run_get` from `src/src/protocol/memcache/get.rs` lines 70-139.
Metrics increments and klog lines are not modelled; the returned value is
the `Result<Option<(usize, Value)>, Error>` of the source. -/
def runGet (flags : Bool) (id : Nat) (key : List Nat) (o : BackendOutcome) :
    Except String (Option (Nat × MValue)) :=
  match o with
  | .hit v =>
    if flags ∧ v.length < 5 then .ok none
    else if flags then .ok (some (id, ⟨key, decodeBE4 v, v.drop 4⟩))
    else .ok (some (id, ⟨key, 0, v⟩))
  | .miss => .ok none
  | .err m => .error m
  | .timedOut => .error "backend timeout"

/-- Embeds the first loop of `get` (`src/src/protocol/memcache/get.rs`
lines 24-43): for each key in order, an eager local-cache hit fills the
result slot, otherwise a backend task `(id, key)` is pushed (the source
pushes the `run_get` future; the outcomes are applied in `processUpstream`).
Returns the initial slots and the pushed tasks, both in key order. -/
def localPhase (mc : Option SyncMokaCache) (now : Nat) :
    List (List Nat) → Nat → List (Option MValue) × List (Nat × List Nat)
  | [], _ => ([], [])
  | k :: ks, i =>
    let r := localPhase mc now ks (i + 1)
    match mc with
    | some c =>
      match c.get now k with
      | some hit =>
        match hit.into_value with
        | .memcached v => (some v :: r.1, r.2)
      | none => (none :: r.1, (i, k) :: r.2)
    | none => (none :: r.1, (i, k) :: r.2)

/-- Embeds the second loop of `get` (`src/src/protocol/memcache/get.rs`
lines 49-59): the collected task results are visited in task order; a hit
backfills the memory cache and fills its slot, a miss is skipped, and the
first error aborts with that error. -/
def processUpstream (now : Nat) :
    List (Except String (Option (Nat × MValue))) → List (Option MValue) →
    Option SyncMokaCache →
    Except String (List (Option MValue)) × Option SyncMokaCache
  | [], slots, mc => (.ok slots, mc)
  | .ok (some (id, v)) :: rest, slots, mc =>
    processUpstream now rest (slots.set id (some v))
      (mc.map (fun c => c.set now v.key (.memcached v)))
  | .ok none :: rest, slots, mc => processUpstream now rest slots mc
  | .error m :: _, _, mc => (.error m, mc)

/-- Embeds `get` from `src/src/protocol/memcache/get.rs` lines 12-68 for a
request with the given keys: local phase, backend task collection (each task
is `run_get` applied to that key's backend outcome), upstream processing,
and response composition (`Response::values` when any slot is filled, else
`Response::not_found`). Returns the response and the memory cache after the
backfills. -/
def getMulti (flags : Bool) (mc : Option SyncMokaCache) (now : Nat)
    (keys : List (List Nat)) (outcome : Nat → BackendOutcome) :
    Response × Option SyncMokaCache :=
  let lp := localPhase mc now keys 0
  let results := lp.2.map (fun p => runGet flags p.1 p.2 (outcome p.1))
  match processUpstream now results lp.1 mc with
  | (.error m, mc) => (.serverError m, mc)
  | (.ok slots, mc) =>
    let vs := slots.filterMap id
    if vs.isEmpty then (.notFound, mc) else (.values vs, mc)

/-- Observable outcome of the 200 ms-deadlined backend `set` call in
`src/src/protocol/memcache/set.rs` lines 61-66: success, a backend error
with its message, or a deadline expiry. -/
inductive SetOutcome where
  | success
  | failure (m : String)
  | deadline
deriving DecidableEq

/-- Backend `set` invocation as issued by the proxy (key, transport value
and effective TTL in seconds), mirroring the `SetRequest::new(cache_name,
key, value).ttl(ttl)` built at `src/src/protocol/memcache/set.rs` line 63. -/
structure BackendSetCall where
  key : List Nat
  value : List Nat
  ttl : Option Nat
deriving DecidableEq

/-- Embeds the transport-value construction of `set`
(`src/src/protocol/memcache/set.rs` lines 31-37): in flags mode the 4
big-endian flag bytes are prepended to the payload. -/
def setTransportValue (flags : Bool) (reqFlags : Nat) (payload : List Nat) :
    List Nat :=
  if flags then beBytes reqFlags ++ payload else payload

/-- Embeds `set` from `src/src/protocol/memcache/set.rs` lines 11-132.
Returns the wire response, the memory cache after the eager write-through,
and the backend call that was issued (`none` when the empty-value guard
rejects the request before any backend traffic). Metrics and klog lines are
not modelled. -/
def setHandler (flags : Bool) (mc : Option SyncMokaCache) (now : Nat)
    (reqKey : List Nat) (reqFlags : Nat) (reqValue : List Nat)
    (reqTtl : Option Nat) (noreply : Bool) (outcome : SetOutcome) :
    Response × Option SyncMokaCache × Option BackendSetCall :=
  if reqValue = [] then (.clientError "empty values not supported", mc, none)
  else
    let value := setTransportValue flags reqFlags reqValue
    let cachedFlags := if flags then reqFlags else 0
    let mc := mc.map
      (fun c => c.set now reqKey (.memcached ⟨reqKey, cachedFlags, reqValue⟩))
    let ttl := reqTtl.map (fun t => max t 1)
    let call : BackendSetCall := ⟨reqKey, value, ttl⟩
    match outcome with
    | .success => (.stored noreply, mc, some call)
    | .failure m => (.serverError m, mc, some call)
    | .deadline => (.serverError "backend timeout", mc, some call)

/-- Backend `get` responses as surfaced by `cache_backend::GetResponse`
(`src/src/cache_backend.rs` lines 8-11). -/
inductive GetResp where
  | hit (value : List Nat)
  | miss
deriving DecidableEq

/-- View of a backend `get` response as a deadline-free `BackendOutcome`,
for feeding a stored response through `run_get`. -/
def GetResp.toOutcome : GetResp → BackendOutcome
  | .hit v => .hit v
  | .miss => .miss

/-- Value store of the remote service, keyed by cache key. The momento
backend (`MomentoCacheBackend`, `src/src/cache_backend.rs` lines 38-65)
stores and returns the transport bytes unchanged. -/
def momentoSet (store : List (List Nat × List Nat)) (key : List Nat)
    (value : List Nat) : List (List Nat × List Nat) :=
  (key, value) :: store.filter (fun p => !decide (p.1 = key))

/-- Lookup in the remote-service store; a present key is a `Hit` with the
stored bytes, matching `MomentoCacheBackend::get`
(`src/src/cache_backend.rs` lines 44-46). -/
def momentoGet (store : List (List Nat × List Nat)) (key : List Nat) :
    GetResp :=
  match store.find? (fun p => decide (p.1 = key)) with
  | some p => .hit p.2
  | none => .miss

/-- Embeds `LocalMemcachedBackend::set` (`src/src/cache_backend.rs` lines
386-426): the first 4 bytes (flags) are stripped when present, and the
worker stores the remaining payload on the memcached server (the wire
command hardcodes flags 0, `execute_set` line 207). The server is modelled
as a key-to-payload store. -/
def localMemcachedSet (store : List (List Nat × List Nat)) (key : List Nat)
    (value : List Nat) : List (List Nat × List Nat) :=
  let data := if 4 ≤ value.length then value.drop 4 else value
  (key, data) :: store.filter (fun p => !decide (p.1 = key))

/-- Embeds `LocalMemcachedBackend::get` (`src/src/cache_backend.rs` lines
351-384): on a hit the worker's payload is returned with 4 zero bytes
prepended for flags, "to match momento format". -/
def localMemcachedGet (store : List (List Nat × List Nat)) (key : List Nat) :
    GetResp :=
  match store.find? (fun p => decide (p.1 = key)) with
  | some p => .hit ([0, 0, 0, 0] ++ p.2)
  | none => .miss

/-- Embeds `SerdeEntry` from `src/src/cache.rs` lines 164-171: the record
serialized into the foyer (hybrid memory + disk) tier. -/
structure SerdeEntry where
  key : List Nat
  data : List Nat
  flags : Nat
  expire_at_secs : Int
deriving DecidableEq

/-- Embeds `foyer_cache::FoyerCache` from `src/src/cache.rs` lines 155-314.
The foyer memory/disk machinery is modelled as an association list of
serialized entries; memory/disk placement is opaque to every claim. -/
structure FoyerCache where
  entries : List (List Nat × SerdeEntry)
  ttl : Nat
deriving DecidableEq

namespace FoyerCache

/-- Embeds `FoyerCache::new` (`src/src/cache.rs` lines 185-224): the TTL is
clamped to at most five years at construction. -/
def new (memory_bytes : Nat) (ttl : Nat) (disk_bytes : Nat)
    (disk_dir : Option String) : FoyerCache :=
  { entries := [], ttl := min ttl fiveYearsSecs }

/-- Embeds `FoyerCache::set` (`src/src/cache.rs` lines 265-295): the entry
is serialized with `expire_at_secs = now_epoch + ttl` and, per the source
comment "We can't access the flags from the public API", a flags field of 0. -/
def set (c : FoyerCache) (nowEpoch : Nat) (key : List Nat)
    (value : CacheValue) : FoyerCache :=
  match value with
  | .memcached v =>
    let e : SerdeEntry :=
      { key := v.key, data := v.data, flags := 0,
        expire_at_secs := (nowEpoch : Int) + (c.ttl : Int) }
    { c with entries := (key, e) :: c.entries.filter (fun p => !decide (p.1 = key)) }

/-- Embeds `FoyerCache::get` (`src/src/cache.rs` lines 226-263): the entry
is returned only while `expire_at_secs` is still in the future; the
reconstructed `CacheEntry` expires `remaining` seconds from now, so the TTL
survives the round trip through the serialized form. -/
def get (c : FoyerCache) (nowEpoch : Nat) (key : List Nat) :
    Option CacheEntry :=
  match c.entries.find? (fun p => decide (p.1 = key)) with
  | some p =>
    let remaining : Nat := (p.2.expire_at_secs - (nowEpoch : Int)).toNat
    if 0 < remaining then
      some ⟨.memcached ⟨p.2.key, p.2.flags, p.2.data⟩, nowEpoch + remaining⟩
    else none
  | none => none

end FoyerCache

/-- Reader-side sequence assignment from
`src/src/frontend.rs` line 215: each parsed request receives
`sequence.fetch_add(1)` from the per-connection counter, starting at the
given counter value. -/
def assignSequences {R : Type} : Nat → List R → List (Nat × R)
  | _, [] => []
  | c, r :: rs => (c, r) :: assignSequences (c + 1) rs

/-- Writer-task state from `src/src/frontend.rs` lines 117-183:
`next_sequence`, the `BTreeMap` backlog of out-of-order completions, and the
list of responses composed into the egress buffer so far (in composition
order, which is wire order since the buffer drains first-in first-out). -/
structure WriterState (R : Type) where
  next_sequence : Nat
  backlog : List (Nat × R)
  composed : List (Nat × R)

/-- Removal of the entry with the given key from the backlog, mirroring
`backlog.remove(&next_sequence)`: returns the mapped value and the rest of
the map when the key is present. -/
def lookupRemove {R : Type} (k : Nat) :
    List (Nat × R) → Option (R × List (Nat × R))
  | [] => none
  | (k', r) :: rest =>
    if k' = k then some (r, rest)
    else
      match lookupRemove k rest with
      | some (r', rest') => some (r', (k', r) :: rest')
      | none => none

/-- Embeds the backlog-draining loop of the writer
(`src/src/frontend.rs` lines 145-160): while the backlog holds an entry for
`next_sequence`, remove it, compose its response, and advance. The loop
removes one backlog entry per iteration, so running it with fuel equal to
the backlog size is exactly the source's `while !backlog.is_empty()` loop. -/
def drainBacklog {R : Type} :
    Nat → Nat → List (Nat × R) → List (Nat × R) →
    Nat × List (Nat × R) × List (Nat × R)
  | 0, next, backlog, composed => (next, backlog, composed)
  | fuel + 1, next, backlog, composed =>
    match lookupRemove next backlog with
    | some (r, rest) => drainBacklog fuel (next + 1) rest (composed ++ [(next, r)])
    | none => (next, backlog, composed)

/-- Embeds one iteration of the writer loop receiving a completed slot
(`src/src/frontend.rs` lines 130-165): a slot matching `next_sequence` is
composed immediately and the backlog is drained of consecutive sequences;
any other slot is inserted into the backlog. -/
def writerStep {R : Type} (st : WriterState R) (msg : Nat × R) :
    WriterState R :=
  if msg.1 = st.next_sequence then
    let d := drainBacklog st.backlog.length (st.next_sequence + 1) st.backlog
      (st.composed ++ [(msg.1, msg.2)])
    ⟨d.1, d.2.1, d.2.2⟩
  else
    { st with backlog := st.backlog ++ [msg] }

/-- Writer task processing a whole arrival order of completed slots,
starting from the initial state (`next_sequence = 0`, empty backlog, empty
egress). -/
def writerRun {R : Type} (msgs : List (Nat × R)) : WriterState R :=
  msgs.foldl writerStep ⟨0, [], []⟩

/-- Specification-side view of the hit handling in `run_get`: the value (if
any) produced for one key from a non-erroring backend outcome. -/
def decodeHit (flags : Bool) (key : List Nat) (o : BackendOutcome) :
    Option MValue :=
  match o with
  | .hit v =>
    if flags ∧ v.length < 5 then none
    else if flags then some ⟨key, decodeBE4 v, v.drop 4⟩
    else some ⟨key, 0, v⟩
  | _ => none

/-- Specification-side list of the values of the keys that hit, in input key
order, for a multi-key get whose backend outcomes are given per key index. -/
def hitValues (flags : Bool) (keys : List (List Nat))
    (outcome : Nat → BackendOutcome) : List MValue :=
  keys.enum.filterMap (fun p => decodeHit flags p.2 (outcome p.1))

/-- Specification-side invariant of the writer task, relative to the
response function `f` and the set `P` of sequence numbers whose completions
have been received so far: the egress holds exactly the responses for the
contiguous range below `next_sequence`, in order, and the backlog holds
exactly the received completions at or above `next_sequence`. -/
def writerInv {R : Type} (f : Nat → R) (P : Nat → Prop) (st : WriterState R) :
    Prop :=
  st.composed = (List.range st.next_sequence).map (fun s => (s, f s)) ∧
  (∀ p ∈ st.backlog, p.2 = f p.1) ∧
  (st.backlog.map Prod.fst).Nodup ∧
  (∀ s, s ∈ st.backlog.map Prod.fst ↔ P s ∧ st.next_sequence ≤ s) ∧
  ¬ P st.next_sequence ∧
  (∀ s, s < st.next_sequence → P s)

/-! Theorems. Helper lemmas come first; each claim has exactly one theorem
(plus its witness or counterexample where required). -/

theorem decodeBE4_beBytes (f : Nat) (hf : f < 2 ^ 32) (rest : List Nat) :
    decodeBE4 (beBytes f ++ rest) = f := by
  simp only [beBytes, decodeBE4, List.cons_append, List.getD_cons_zero,
    List.getD_cons_succ]
  omega

theorem beBytes_length (f : Nat) : (beBytes f).length = 4 := rfl

theorem drop4_beBytes_append (f : Nat) (rest : List Nat) :
    (beBytes f ++ rest).drop 4 = rest := by
  rw [show 4 = (beBytes f).length from rfl, List.drop_left]

/-- C9: the claim states that the per-connection I/O buffer size equals the
configured value rounded up to the next multiple of the page size 4096.
The code's own comment says the same, but `Cache::buffer_size` computes only
`div_ceil(PAGESIZE)` without multiplying back: for the default configured
size 16384 it yields 4 (not 16384), and for 4096 it yields 1 (not 4096). -/
theorem c9_buffer_size_is_page_count_not_bytes :
    buffer_size 16384 = 4 ∧ buffer_size 4096 = 1 ∧ buffer_size 1 = 1 ∧
      (4 : Nat) ≠ 16384 := by
  refine ⟨rfl, rfl, rfl, by decide⟩

/-- C5: in flags mode a backend hit of at least 5 bytes decodes the first
four bytes as big-endian flags with the remainder as payload; a hit shorter
than 5 bytes produces no value (a miss); without flags mode the whole buffer
is the payload with flags 0. -/
theorem c5_hit_decoding (id : Nat) (key : List Nat) (a b c d e : Nat)
    (rest v : List Nat) :
    runGet true id key (.hit (a :: b :: c :: d :: e :: rest)) =
      .ok (some (id, ⟨key, ((a * 256 + b) * 256 + c) * 256 + d, e :: rest⟩)) ∧
    (v.length < 5 → runGet true id key (.hit v) = .ok none) ∧
    runGet false id key (.hit v) = .ok (some (id, ⟨key, 0, v⟩)) := by
  refine ⟨?_, ?_, ?_⟩
  · simp only [runGet, List.length_cons, decodeBE4, List.getD_cons_zero,
      List.getD_cons_succ, List.drop_succ_cons, List.drop_zero]
    rw [if_neg (by omega), if_pos trivial]
    have : a * 2 ^ 24 + b * 2 ^ 16 + c * 2 ^ 8 + d =
        ((a * 256 + b) * 256 + c) * 256 + d := by ring
    rw [this]
  · intro h
    simp only [runGet]
    rw [if_pos ⟨trivial, h⟩]
  · simp only [runGet]
    rw [if_neg (by simp), if_neg (by simp)]

theorem c5_hit_decoding_witness :
    runGet true 0 [107] (.hit [0, 0, 0, 42, 7]) =
      .ok (some (0, ⟨[107], 42, [7]⟩)) ∧
    runGet true 0 [107] (.hit [1, 2]) = .ok none :=
  ⟨(c5_hit_decoding 0 [107] 0 0 0 42 7 [] [1, 2]).1,
   (c5_hit_decoding 0 [107] 0 0 0 42 7 [] [1, 2]).2.1 (by decide)⟩

/-- C6: a memcache set with a client-specified TTL invokes the backend with
effective TTL `max(ttl, 1)` seconds, and the outcome maps to STORED on
success, SERVER_ERROR with the error text on failure, and
SERVER_ERROR "backend timeout" on deadline expiry. -/
theorem c6_set_ttl_floor_and_outcome_mapping (flags : Bool)
    (mc : Option SyncMokaCache) (now : Nat) (k : List Nat) (f : Nat)
    (v : List Nat) (t : Nat) (nr : Bool) (hv : v ≠ []) :
    (∀ o, (setHandler flags mc now k f v (some t) nr o).2.2 =
      some ⟨k, setTransportValue flags f v, some (max t 1)⟩) ∧
    (setHandler flags mc now k f v (some t) nr .success).1 = .stored nr ∧
    (∀ m, (setHandler flags mc now k f v (some t) nr (.failure m)).1 =
      .serverError m) ∧
    (setHandler flags mc now k f v (some t) nr .deadline).1 =
      .serverError "backend timeout" := by
  refine ⟨fun o => ?_, ?_, fun m => ?_, ?_⟩ <;>
    first
      | (cases o <;> simp [setHandler, hv])
      | simp [setHandler, hv]

theorem c6_set_ttl_floor_and_outcome_mapping_witness :
    (setHandler true none 0 [102] 5 [1, 2] (some 0) false .success).2.2 =
      some ⟨[102], setTransportValue true 5 [1, 2], some (max 0 1)⟩ ∧
    (setHandler true none 0 [102] 5 [1, 2] (some 0) false .deadline).1 =
      .serverError "backend timeout" :=
  ⟨(c6_set_ttl_floor_and_outcome_mapping true none 0 [102] 5 [1, 2] 0 false
      (by decide)).1 .success,
   (c6_set_ttl_floor_and_outcome_mapping true none 0 [102] 5 [1, 2] 0 false
      (by decide)).2.2.2⟩

/-- C7: every local-cache tier clamps its per-entry TTL to at most five
years at construction, so the expiry stamped by `set` is never more than
five years past the entry's creation; a configured
`memory_cache_ttl_seconds` of 0 is first turned into the maximum duration
(unlimited) and then clamped. -/
theorem c7_ttl_clamped_to_five_years (mb t cfg now : Nat) (k : List Nat)
    (v : CacheValue) (db : Nat) (dd : Option String) :
    (SyncMokaCache.new mb t).ttl ≤ fiveYearsSecs ∧
    (FoyerCache.new mb t db dd).ttl ≤ fiveYearsSecs ∧
    (∀ p ∈ ((SyncMokaCache.new mb (memoryCacheConfigTtl cfg)).set now k v).entries,
      p.2.expire_at ≤ now + fiveYearsSecs) ∧
    (∀ p ∈ ((FoyerCache.new mb (memoryCacheConfigTtl cfg) db dd).set now k v).entries,
      p.2.expire_at_secs ≤ (now : Int) + (fiveYearsSecs : Int)) ∧
    (cfg = 0 → memoryCacheConfigTtl cfg = durationMaxSecs) := by
  refine ⟨Nat.min_le_right _ _, Nat.min_le_right _ _, ?_, ?_, ?_⟩
  · intro p hp
    simp only [SyncMokaCache.new, SyncMokaCache.set, List.mem_singleton] at hp
    subst hp
    have := Nat.min_le_right (memoryCacheConfigTtl cfg) fiveYearsSecs
    simp only []
    omega
  · intro p hp
    cases v with
    | memcached w =>
      simp only [FoyerCache.new, FoyerCache.set, List.filter_nil,
        List.mem_singleton] at hp
      subst hp
      have := Nat.min_le_right (memoryCacheConfigTtl cfg) fiveYearsSecs
      simp only []
      omega
  · intro h
    simp [memoryCacheConfigTtl, h]

theorem c7_ttl_clamped_to_five_years_witness :
    ((SyncMokaCache.new 1024 (memoryCacheConfigTtl 0)).set 50 [107]
        (.memcached ⟨[107], 0, [1]⟩)).entries.head?.map
        (fun p => decide (p.2.expire_at ≤ 50 + fiveYearsSecs)) = some true ∧
    memoryCacheConfigTtl 0 = durationMaxSecs := by
  have h := c7_ttl_clamped_to_five_years 1024 7 0 50 [107]
    (.memcached ⟨[107], 0, [1]⟩) 0 none
  refine ⟨?_, h.2.2.2.2 rfl⟩
  have hm := h.2.2.1 ([107], ⟨.memcached ⟨[107], 0, [1]⟩,
    50 + min (memoryCacheConfigTtl 0) fiveYearsSecs⟩) (by
      simp [SyncMokaCache.new, SyncMokaCache.set])
  simp only [SyncMokaCache.new, SyncMokaCache.set, List.head?_cons,
    Option.map_some', Option.some.injEq]
  exact decide_eq_true hm

/-- C8 counterexample: the claim states the serialized hybrid-tier entry
carries the flags so that a later get reconstructs the value with the same
flags it was stored with. `FoyerCache::set` writes `flags: 0` (its comment:
"We can't access the flags from the public API"), so a value stored with
flags 42 comes back with flags 0. -/
theorem c8_counterexample :
    ((FoyerCache.new 1024 60 0 none).set 1000 [120]
        (.memcached ⟨[120], 42, [104, 105]⟩)).get 1000 [120] =
      some ⟨.memcached ⟨[120], 0, [104, 105]⟩, 1060⟩ ∧
    (0 : Nat) ≠ 42 :=
  ⟨rfl, by decide⟩

/-- C8 amended: the serialized hybrid-tier entry carries the key, the data,
the expiry as epoch seconds, and a flags field that is always written as 0;
a later get within the TTL reconstructs the key and payload unchanged, with
flags 0 (so flags are preserved only when they were 0), and the absolute
expiry — hence the TTL — is preserved across the spill. -/
theorem c8_spill_preserves_data_and_ttl_but_zeroes_flags (c : FoyerCache)
    (nowS nowG : Nat) (k key0 : List Nat) (f : Nat) (data0 : List Nat)
    (hlt : nowG < nowS + c.ttl) :
    (c.set nowS k (.memcached ⟨key0, f, data0⟩)).get nowG k =
      some ⟨.memcached ⟨key0, 0, data0⟩, nowS + c.ttl⟩ := by
  simp only [FoyerCache.set, FoyerCache.get, List.find?_cons,
    decide_eq_true_eq, eq_self_iff_true, decide_True]
  have hrem : ((nowS : Int) + (c.ttl : Int) - (nowG : Int)).toNat =
      nowS + c.ttl - nowG := by omega
  simp only [hrem]
  rw [if_pos (by omega)]
  have harith : nowG + (nowS + c.ttl - nowG) = nowS + c.ttl := by omega
  rw [harith]

theorem c8_spill_preserves_data_and_ttl_but_zeroes_flags_witness :
    ((FoyerCache.new 2048 60 0 none).set 1000 [121]
        (.memcached ⟨[121], 0, [9]⟩)).get 1030 [121] =
      some ⟨.memcached ⟨[121], 0, [9]⟩, 1060⟩ :=
  c8_spill_preserves_data_and_ttl_but_zeroes_flags (FoyerCache.new 2048 60 0 none)
    1000 1030 [121] [121] 0 [9] (by decide)

/-- C2 counterexample: the claim states the flags round-trip holds for both
backend implementations. Through the pooled memcache-TCP backend a set with
flags 42 and payload "hi" is observed by a subsequent get with flags 0: the
backend strips the 4 flag bytes on set and prepends zero bytes on get. -/
theorem c2_counterexample :
    runGet true 0 [120] ((localMemcachedGet (localMemcachedSet [] [120]
        (setTransportValue true 42 [104, 105])) [120]).toOutcome) =
      .ok (some (0, ⟨[120], 0, [104, 105]⟩)) ∧
    (0 : Nat) ≠ 42 :=
  ⟨rfl, by decide⟩

/-- C2 amended: in flags mode a set stores the transport value as the 4
big-endian bytes of F followed by P. Through the remote RPC backend a
subsequent get observes exactly (flags = F, payload = P); through the
pooled memcache-TCP backend the payload round-trips but the flags are
observed as 0, so the full round-trip holds there only when F = 0. -/
theorem c2_flags_roundtrip_per_backend (store store2 : List (List Nat × List Nat))
    (k P : List Nat) (F : Nat) (hP : P ≠ []) (hF : F < 2 ^ 32) :
    runGet true 0 k ((momentoGet (momentoSet store k
        (setTransportValue true F P)) k).toOutcome) =
      .ok (some (0, ⟨k, F, P⟩)) ∧
    runGet true 0 k ((localMemcachedGet (localMemcachedSet store2 k
        (setTransportValue true F P)) k).toOutcome) =
      .ok (some (0, ⟨k, 0, P⟩)) := by
  have hlen : (setTransportValue true F P).length = 4 + P.length := by
    simp [setTransportValue, beBytes]
    omega
  have hPlen : 0 < P.length := List.length_pos.mpr hP
  constructor
  · simp only [momentoSet, momentoGet, List.find?_cons, decide_eq_true_eq,
      eq_self_iff_true, decide_True, GetResp.toOutcome, runGet]
    rw [if_neg (by omega), if_pos trivial]
    simp only [setTransportValue, if_pos trivial]
    rw [decodeBE4_beBytes F hF, drop4_beBytes_append]
  · simp only [localMemcachedSet, localMemcachedGet, List.find?_cons,
      decide_eq_true_eq, eq_self_iff_true, decide_True]
    rw [if_pos (by omega)]
    simp only [setTransportValue, if_pos trivial, drop4_beBytes_append,
      GetResp.toOutcome, runGet]
    simp only [List.cons_append, List.nil_append, decodeBE4,
      List.getD_cons_zero, List.getD_cons_succ, List.drop_succ_cons,
      List.drop_zero]
    norm_num
    intro h
    exact absurd h (by omega)

theorem c2_flags_roundtrip_per_backend_witness :
    runGet true 0 [120] ((momentoGet (momentoSet [] [120]
        (setTransportValue true 42 [104, 105])) [120]).toOutcome) =
      .ok (some (0, ⟨[120], 42, [104, 105]⟩)) ∧
    runGet true 0 [120] ((localMemcachedGet (localMemcachedSet [] [120]
        (setTransportValue true 42 [104, 105])) [120]).toOutcome) =
      .ok (some (0, ⟨[120], 0, [104, 105]⟩)) :=
  c2_flags_roundtrip_per_backend [] [] [120] [104, 105] 42 (by decide) (by decide)

/-- C3 counterexample: the claim states a single-key get whose backend call
exceeds the 200 ms deadline is treated as a miss and answered with END.
The code maps the timeout to an error, so the client receives
SERVER_ERROR "backend timeout" rather than the miss response. -/
theorem c3_counterexample :
    getMulti true none 0 [[115, 108, 111, 119]] (fun _ => .timedOut) =
      (.serverError "backend timeout", none) ∧
    Response.serverError "backend timeout" ≠ Response.notFound :=
  ⟨rfl, by decide⟩

/-- C3 amended: a single-key get whose backend call exceeds the 200 ms
deadline is answered with SERVER_ERROR "backend timeout" (the timeout is
surfaced as an error, not treated as a miss). -/
theorem c3_single_key_timeout_is_server_error (flags : Bool) (now : Nat)
    (k : List Nat) :
    (getMulti flags none now [k] (fun _ => .timedOut)).1 =
      .serverError "backend timeout" := rfl

/-- C10: with a local cache configured and a non-empty value, a memcache
set writes the fresh value into the local cache, identically for every
backend outcome (so a backend failure or timeout does not roll it back);
after a set that returns SERVER_ERROR a local-cache get still returns the
new value. -/
theorem c10_local_write_survives_backend_failure (flags : Bool)
    (c : SyncMokaCache) (now : Nat) (k : List Nat) (f : Nat) (v : List Nat)
    (t : Option Nat) (nr : Bool) (hv : v ≠ []) (httl : 0 < c.ttl) :
    (∀ o, (setHandler flags (some c) now k f v t nr o).2.1 =
      some (c.set now k (.memcached ⟨k, if flags then f else 0, v⟩))) ∧
    (∀ m, (setHandler flags (some c) now k f v t nr (.failure m)).1 =
      .serverError m) ∧
    (setHandler flags (some c) now k f v t nr .deadline).1 =
      .serverError "backend timeout" ∧
    (c.set now k (.memcached ⟨k, if flags then f else 0, v⟩)).get now k =
      some ⟨.memcached ⟨k, if flags then f else 0, v⟩, now + c.ttl⟩ := by
  refine ⟨fun o => ?_, fun m => ?_, ?_, ?_⟩
  · cases o <;> simp [setHandler, hv]
  · simp [setHandler, hv]
  · simp [setHandler, hv]
  · simp only [SyncMokaCache.set, SyncMokaCache.get, List.find?_cons,
      decide_eq_true_eq, eq_self_iff_true, decide_True]
    rw [if_pos (by omega)]

theorem c10_local_write_survives_backend_failure_witness :
    (setHandler true (some (SyncMokaCache.new 1024 60)) 7 [102] 5 [1, 2]
        (some 0) false (.failure "boom")).2.1 =
      some ((SyncMokaCache.new 1024 60).set 7 [102]
        (.memcached ⟨[102], 5, [1, 2]⟩)) ∧
    ((SyncMokaCache.new 1024 60).set 7 [102]
        (.memcached ⟨[102], 5, [1, 2]⟩)).get 7 [102] =
      some ⟨.memcached ⟨[102], 5, [1, 2]⟩, 67⟩ := by
  have h := c10_local_write_survives_backend_failure true
    (SyncMokaCache.new 1024 60) 7 [102] 5 [1, 2] (some 0) false
    (by decide) (by decide)
  exact ⟨h.1 (.failure "boom"), h.2.2.2⟩

theorem runGet_of_not_isErr (flags : Bool) (i : Nat) (k : List Nat)
    (o : BackendOutcome) (h : o.isErr = false) :
    runGet flags i k o = .ok ((decodeHit flags k o).map (fun v => (i, v))) := by
  cases o with
  | hit v =>
    simp only [runGet, decodeHit]
    split
    · rfl
    · split <;> rfl
  | miss => rfl
  | err m => simp [BackendOutcome.isErr] at h
  | timedOut => simp [BackendOutcome.isErr] at h

theorem localPhase_none (now : Nat) :
    ∀ (keys : List (List Nat)) (i : Nat),
    localPhase none now keys i = (keys.map (fun _ => none), keys.enumFrom i) := by
  intro keys
  induction keys with
  | nil => intro i; rfl
  | cons k ks ih =>
    intro i
    simp only [localPhase, ih (i + 1), List.map_cons, List.enumFrom]

theorem list_set_append_length {α : Type} (pre : List α) (x y : α)
    (tail : List α) :
    (pre ++ x :: tail).set pre.length y = pre ++ y :: tail := by
  induction pre with
  | nil => rfl
  | cons p ps ih => simp only [List.cons_append, List.length_cons, List.set_cons_succ, ih]

theorem processUpstream_error_of_mem (now : Nat) :
    ∀ (results : List (Except String (Option (Nat × MValue))))
      (slots : List (Option MValue)) (mc : Option SyncMokaCache),
    (∃ m, Except.error m ∈ results) →
    ∃ m mc2, processUpstream now results slots mc = (.error m, mc2) := by
  intro results
  induction results with
  | nil => intro slots mc h; simp at h
  | cons r rest ih =>
    intro slots mc h
    obtain ⟨m, hm⟩ := h
    rcases List.mem_cons.mp hm with h1 | h2
    · subst h1
      exact ⟨m, mc, rfl⟩
    · cases r with
      | error m' => exact ⟨m', mc, rfl⟩
      | ok w =>
        cases w with
        | none => exact ih slots mc ⟨m, h2⟩
        | some p => exact ih _ _ ⟨m, h2⟩

theorem processUpstream_all_ok (now : Nat) (flags : Bool)
    (outcome : Nat → BackendOutcome) :
    ∀ (keys : List (List Nat)) (i : Nat) (pre : List (Option MValue)),
    pre.length = i →
    (∀ p ∈ keys.enumFrom i, (outcome p.1).isErr = false) →
    processUpstream now
        ((keys.enumFrom i).map (fun p => runGet flags p.1 p.2 (outcome p.1)))
        (pre ++ keys.map (fun _ => none)) none =
      (.ok (pre ++ (keys.enumFrom i).map
        (fun p => decodeHit flags p.2 (outcome p.1))), none) := by
  intro keys
  induction keys with
  | nil => intro i pre hlen hok; simp [processUpstream, List.enumFrom]
  | cons k ks ih =>
    intro i pre hlen hok
    have hmem : (i, k) ∈ (k :: ks).enumFrom i := by
      simp [List.enumFrom]
    have hko := hok (i, k) hmem
    have hrest : ∀ p ∈ ks.enumFrom (i + 1), (outcome p.1).isErr = false := by
      intro p hp
      exact hok p (by simp [List.enumFrom, hp])
    simp only [List.enumFrom, List.map_cons, List.map]
    rw [runGet_of_not_isErr flags i k (outcome i) hko]
    cases hd : decodeHit flags k (outcome i) with
    | none =>
      simp only [Option.map_none, processUpstream]
      have := ih (i + 1) (pre ++ [none]) (by simp [hlen])
        (by simpa using hrest)
      simpa [List.append_assoc] using this
    | some v =>
      simp only [Option.map_some, processUpstream]
      have hset : (pre ++ none :: ks.map (fun _ => none)).set i (some v) =
          pre ++ some v :: ks.map (fun _ => none) := by
        rw [← hlen]
        exact list_set_append_length pre none (some v) _
      rw [hset]
      have := ih (i + 1) (pre ++ [some v]) (by simp [hlen])
        (by simpa using hrest)
      simpa [List.append_assoc, Option.map_none] using this

/-- C4: for a multi-key memcache get, if any key's backend call returns an
error (including a timeout), the whole response is a single SERVER_ERROR
and no per-key values are served; if no backend call errors, the response
contains exactly the values of the keys that hit, in input key order (END
when none hit). -/
theorem c4_multi_key_error_handling (flags : Bool) (now : Nat)
    (keys : List (List Nat)) (outcome : Nat → BackendOutcome) :
    ((∃ p ∈ keys.enum, (outcome p.1).isErr = true) →
      ∃ m, (getMulti flags none now keys outcome).1 = .serverError m) ∧
    ((∀ p ∈ keys.enum, (outcome p.1).isErr = false) →
      (getMulti flags none now keys outcome).1 =
        if (hitValues flags keys outcome).isEmpty then .notFound
        else .values (hitValues flags keys outcome)) := by
  constructor
  · intro h
    obtain ⟨p, hp, herr⟩ := h
    have herr2 : ∃ m, runGet flags p.1 p.2 (outcome p.1) = .error m := by
      cases ho : outcome p.1 with
      | hit v => rw [ho] at herr; simp [BackendOutcome.isErr] at herr
      | miss => rw [ho] at herr; simp [BackendOutcome.isErr] at herr
      | err m => exact ⟨m, rfl⟩
      | timedOut => exact ⟨"backend timeout", rfl⟩
    obtain ⟨m0, hm0⟩ := herr2
    have hlp := localPhase_none now keys 0
    have hmem : Except.error m0 ∈ (keys.enumFrom 0).map
        (fun p => runGet flags p.1 p.2 (outcome p.1)) := by
      rw [← hm0]
      exact List.mem_map_of_mem _ hp
    obtain ⟨m, mc2, hpu⟩ := processUpstream_error_of_mem now _
      (keys.map (fun _ => none)) none ⟨m0, hmem⟩
    refine ⟨m, ?_⟩
    simp only [getMulti, hlp]
    rw [hpu]
  · intro h
    have hlp := localPhase_none now keys 0
    have hpu := processUpstream_all_ok now flags outcome keys 0 [] rfl h
    simp only [List.nil_append] at hpu
    simp only [getMulti, hlp, hpu]
    have hfm : ((keys.enumFrom 0).map
        (fun p => decodeHit flags p.2 (outcome p.1))).filterMap id =
        hitValues flags keys outcome := by
      rw [List.filterMap_map]
      rfl
    simp only [hfm]
    split <;> rfl

theorem c4_multi_key_error_handling_witness :
    (∃ m, (getMulti true none 0 [[97], [98]]
      (fun i => if i = 0 then .hit [0, 0, 0, 0, 1] else .timedOut)).1 =
        .serverError m) ∧
    (getMulti true none 0 [[97], [98], [99]]
      (fun i => if i = 1 then .hit [0, 0, 0, 42, 7] else .miss)).1 =
      .values [⟨[98], 42, [7]⟩] := by
  constructor
  · exact (c4_multi_key_error_handling true 0 [[97], [98]]
      (fun i => if i = 0 then .hit [0, 0, 0, 0, 1] else .timedOut)).1
      ⟨(1, [98]), by simp [List.enum, List.enumFrom], by decide⟩
  · have h := (c4_multi_key_error_handling true 0 [[97], [98], [99]]
      (fun i => if i = 1 then .hit [0, 0, 0, 42, 7] else .miss)).2 (by
        intro p hp
        fin_cases hp <;> decide)
    rw [h]
    rfl

theorem assignSequences_map_fst {R : Type} :
    ∀ (reqs : List R) (c : Nat),
    (assignSequences c reqs).map Prod.fst = List.range' c reqs.length := by
  intro reqs
  induction reqs with
  | nil => intro c; rfl
  | cons r rs ih =>
    intro c
    simp only [assignSequences, List.map_cons, List.length_cons,
      List.range'_succ, ih (c + 1)]

theorem lookupRemove_eq_none {R : Type} (k : Nat) :
    ∀ (l : List (Nat × R)), lookupRemove k l = none → k ∉ l.map Prod.fst := by
  intro l
  induction l with
  | nil => intro h hc; simp at hc
  | cons p tl ih =>
    obtain ⟨a, b⟩ := p
    intro h
    simp only [lookupRemove] at h
    split at h
    · cases h
    · rename_i hkne
      cases hm : lookupRemove k tl with
      | none =>
        simp only [List.map_cons, List.mem_cons]
        rintro (h1 | h2)
        · exact hkne h1.symm
        · exact ih hm h2
      | some v =>
        rw [hm] at h
        obtain ⟨a2, b2⟩ := v
        cases h

theorem lookupRemove_mem {R : Type} (k : Nat) :
    ∀ {l : List (Nat × R)} {r : R} {rest : List (Nat × R)},
    lookupRemove k l = some (r, rest) → (k, r) ∈ l := by
  intro l
  induction l with
  | nil => intro r rest h; cases h
  | cons p tl ih =>
    intro r rest h
    simp only [lookupRemove] at h
    split at h
    · rename_i heq
      cases h
      cases p with
      | mk a b => simp at heq; subst heq; exact List.mem_cons_self _ _
    · cases hm : lookupRemove k tl with
      | none => rw [hm] at h; cases h
      | some v =>
        rw [hm] at h
        cases v with
        | mk r' rest' =>
          cases h
          exact List.mem_cons_of_mem _ (ih hm)

theorem lookupRemove_sub {R : Type} (k : Nat) :
    ∀ {l : List (Nat × R)} {r : R} {rest : List (Nat × R)},
    lookupRemove k l = some (r, rest) → ∀ p ∈ rest, p ∈ l := by
  intro l
  induction l with
  | nil => intro r rest h; cases h
  | cons p tl ih =>
    intro r rest h
    simp only [lookupRemove] at h
    split at h
    · cases h
      exact fun q hq => List.mem_cons_of_mem _ hq
    · cases hm : lookupRemove k tl with
      | none => rw [hm] at h; cases h
      | some v =>
        rw [hm] at h
        cases v with
        | mk r' rest' =>
          cases h
          intro q hq
          rcases List.mem_cons.mp hq with h1 | h2
          · subst h1; exact List.mem_cons_self _ _
          · exact List.mem_cons_of_mem _ (ih hm q h2)

theorem lookupRemove_length_succ {R : Type} (k : Nat) :
    ∀ {l : List (Nat × R)} {r : R} {rest : List (Nat × R)},
    lookupRemove k l = some (r, rest) → rest.length + 1 = l.length := by
  intro l
  induction l with
  | nil => intro r rest h; cases h
  | cons p tl ih =>
    intro r rest h
    simp only [lookupRemove] at h
    split at h
    · cases h; rfl
    · cases hm : lookupRemove k tl with
      | none => rw [hm] at h; cases h
      | some v =>
        rw [hm] at h
        cases v with
        | mk r' rest' =>
          cases h
          simp only [List.length_cons, ih hm]

theorem lookupRemove_keys {R : Type} (k : Nat) :
    ∀ {l : List (Nat × R)} {r : R} {rest : List (Nat × R)},
    lookupRemove k l = some (r, rest) → (l.map Prod.fst).Nodup →
    ∀ s, s ∈ rest.map Prod.fst ↔ (s ∈ l.map Prod.fst ∧ s ≠ k) := by
  intro l
  induction l with
  | nil => intro r rest h; cases h
  | cons p tl ih =>
    intro r rest h hnd s
    simp only [List.map_cons, List.nodup_cons] at hnd
    simp only [lookupRemove] at h
    split at h
    · rename_i heq
      cases h
      simp only [List.map_cons, List.mem_cons]
      constructor
      · intro hs
        refine ⟨Or.inr hs, ?_⟩
        intro hsk
        subst hsk
        rw [heq] at hnd
        exact hnd.1 hs
      · rintro ⟨h1 | h2, hne⟩
        · subst h1; rw [heq] at hne; exact absurd rfl hne
        · exact h2
    · rename_i hne
      cases hm : lookupRemove k tl with
      | none => rw [hm] at h; cases h
      | some v =>
        rw [hm] at h
        cases v with
        | mk r' rest' =>
          cases h
          simp only [List.map_cons, List.mem_cons]
          rw [ih hm hnd.2 s]
          constructor
          · rintro (h1 | ⟨h2, h3⟩)
            · subst h1
              exact ⟨Or.inl rfl, fun hc => hne hc⟩
            · exact ⟨Or.inr h2, h3⟩
          · rintro ⟨h1 | h2, h3⟩
            · exact Or.inl h1
            · exact Or.inr ⟨h2, h3⟩

theorem lookupRemove_keys_nodup {R : Type} (k : Nat) :
    ∀ {l : List (Nat × R)} {r : R} {rest : List (Nat × R)},
    lookupRemove k l = some (r, rest) → (l.map Prod.fst).Nodup →
    (rest.map Prod.fst).Nodup := by
  intro l
  induction l with
  | nil => intro r rest h; cases h
  | cons p tl ih =>
    intro r rest h hnd
    simp only [List.map_cons, List.nodup_cons] at hnd
    simp only [lookupRemove] at h
    split at h
    · cases h; exact hnd.2
    · cases hm : lookupRemove k tl with
      | none => rw [hm] at h; cases h
      | some v =>
        rw [hm] at h
        cases v with
        | mk r' rest' =>
          cases h
          simp only [List.map_cons, List.nodup_cons]
          refine ⟨?_, ih hm hnd.2⟩
          intro hc
          exact hnd.1 (((lookupRemove_keys k hm hnd.2 p.1).mp hc).1)

theorem writerInv_congr {R : Type} (f : Nat → R) (P Q : Nat → Prop)
    (st : WriterState R) (h : ∀ s, P s ↔ Q s) (hI : writerInv f P st) :
    writerInv f Q st := by
  obtain ⟨h1, h2, h3, h4, h5, h6⟩ := hI
  refine ⟨h1, h2, h3, ?_, ?_, ?_⟩
  · intro s
    rw [h4 s, h s]
  · rw [← h st.next_sequence]
    exact h5
  · intro s hs
    rw [← h s]
    exact h6 s hs

theorem drainBacklog_inv {R : Type} (f : Nat → R) (Q : Nat → Prop) :
    ∀ (fuel : Nat) (backlog : List (Nat × R)) (next : Nat)
      (composed : List (Nat × R)),
    backlog.length ≤ fuel →
    composed = (List.range next).map (fun s => (s, f s)) →
    (∀ p ∈ backlog, p.2 = f p.1) →
    (backlog.map Prod.fst).Nodup →
    (∀ s, s ∈ backlog.map Prod.fst ↔ Q s ∧ next ≤ s) →
    (∀ s, s < next → Q s) →
    writerInv f Q ⟨(drainBacklog fuel next backlog composed).1,
      (drainBacklog fuel next backlog composed).2.1,
      (drainBacklog fuel next backlog composed).2.2⟩ := by
  intro fuel
  induction fuel with
  | zero =>
    intro backlog next composed hfuel hcomp hvals hnd hkeys hlow
    have hb : backlog = [] := List.length_eq_zero.mp (Nat.le_zero.mp hfuel)
    subst hb
    refine ⟨hcomp, hvals, hnd, hkeys, ?_, hlow⟩
    intro hq
    exact absurd ((hkeys next).mpr ⟨hq, Nat.le_refl next⟩) (by simp)
  | succ fuel ih =>
    intro backlog next composed hfuel hcomp hvals hnd hkeys hlow
    cases hlr : lookupRemove next backlog with
    | none =>
      have hnm := lookupRemove_eq_none next backlog hlr
      simp only [drainBacklog, hlr]
      refine ⟨hcomp, hvals, hnd, hkeys, ?_, hlow⟩
      intro hq
      exact hnm ((hkeys next).mpr ⟨hq, Nat.le_refl next⟩)
    | some v =>
      obtain ⟨r, rest⟩ := v
      have hmem := lookupRemove_mem next hlr
      have hr : r = f next := hvals (next, r) hmem
      have hnextkey : next ∈ backlog.map Prod.fst :=
        List.mem_map_of_mem Prod.fst hmem
      have hQnext : Q next := ((hkeys next).mp hnextkey).1
      simp only [drainBacklog, hlr]
      refine ih rest (next + 1) (composed ++ [(next, r)]) ?_ ?_ ?_ ?_ ?_ ?_
      · have := lookupRemove_length_succ next hlr
        omega
      · rw [hcomp, hr, List.range_succ, List.map_append]
        rfl
      · intro p hp
        exact hvals p (lookupRemove_sub next hlr p hp)
      · exact lookupRemove_keys_nodup next hlr hnd
      · intro s
        rw [lookupRemove_keys next hlr hnd s, hkeys s]
        constructor
        · rintro ⟨⟨hq, hle⟩, hne⟩
          exact ⟨hq, by omega⟩
        · rintro ⟨hq, hle⟩
          exact ⟨⟨hq, by omega⟩, by omega⟩
      · intro s hs
        rcases Nat.lt_succ_iff_lt_or_eq.mp hs with h1 | h2
        · exact hlow s h1
        · subst h2; exact hQnext

theorem writerStep_inv {R : Type} (f : Nat → R) (P : Nat → Prop)
    (st : WriterState R) (t : Nat) (hInv : writerInv f P st) (ht : ¬ P t) :
    writerInv f (fun s => P s ∨ s = t) (writerStep st (t, f t)) := by
  obtain ⟨h1, h2, h3, h4, h5, h6⟩ := hInv
  by_cases heq : t = st.next_sequence
  · simp only [writerStep]
    rw [if_pos heq]
    refine drainBacklog_inv f _ st.backlog.length st.backlog
      (st.next_sequence + 1) (st.composed ++ [(t, f t)]) (Nat.le_refl _)
      ?_ h2 h3 ?_ ?_
    · rw [heq, h1, List.range_succ, List.map_append]
      rfl
    · intro s
      rw [h4 s]
      constructor
      · rintro ⟨hp, hle⟩
        have hne : s ≠ st.next_sequence := by
          intro hc
          subst hc
          exact h5 hp
        exact ⟨Or.inl hp, by omega⟩
      · rintro ⟨hp | hst, hle⟩
        · exact ⟨hp, by omega⟩
        · subst hst
          omega
    · intro s hs
      rcases Nat.lt_succ_iff_lt_or_eq.mp hs with hlt | heq2
      · exact Or.inl (h6 s hlt)
      · exact Or.inr (by omega)
  · have htge : st.next_sequence ≤ t := by
      rcases Nat.lt_or_ge t st.next_sequence with hlt | hge
      · exact absurd (h6 t hlt) ht
      · exact hge
    simp only [writerStep, if_neg heq]
    have htnk : t ∉ st.backlog.map Prod.fst := by
      intro hc
      exact ht ((h4 t).mp hc).1
    refine ⟨h1, ?_, ?_, ?_, ?_, ?_⟩
    · intro p hp
      rcases List.mem_append.mp hp with hin | hone
      · exact h2 p hin
      · simp only [List.mem_singleton] at hone
        subst hone
        rfl
    · rw [List.map_append]
      rw [List.nodup_append]
      refine ⟨h3, List.nodup_singleton t, ?_⟩
      intro a ha hb
      simp only [List.map_cons, List.map_nil, List.mem_singleton] at hb
      subst hb
      exact htnk ha
    · intro s
      rw [List.map_append]
      simp only [List.mem_append, List.map_cons, List.map_nil,
        List.mem_singleton]
      rw [h4 s]
      constructor
      · rintro (⟨hp, hle⟩ | hst)
        · exact ⟨Or.inl hp, hle⟩
        · subst hst
          exact ⟨Or.inr rfl, htge⟩
      · rintro ⟨hp | hst, hle⟩
        · exact Or.inl ⟨hp, hle⟩
        · exact Or.inr hst
    · rintro (hp | hst)
      · exact h5 hp
      · exact heq hst.symm
    · intro s hs
      exact Or.inl (h6 s hs)

theorem writerFold_inv {R : Type} (f : Nat → R) :
    ∀ (arr : List (Nat × R)) (P : Nat → Prop) (st : WriterState R),
    writerInv f P st →
    (∀ p ∈ arr, p.2 = f p.1) →
    (arr.map Prod.fst).Nodup →
    (∀ p ∈ arr, ¬ P p.1) →
    writerInv f (fun s => P s ∨ s ∈ arr.map Prod.fst)
      (arr.foldl writerStep st) := by
  intro arr
  induction arr with
  | nil =>
    intro P st hInv hvals hnd hP
    exact writerInv_congr f P _ st (by simp) hInv
  | cons q tl ih =>
    intro P st hInv hvals hnd hP
    obtain ⟨t, r⟩ := q
    have hr : r = f t := hvals (t, r) (List.mem_cons_self _ _)
    subst hr
    have hstep := writerStep_inv f P st t hInv
      (hP (t, f t) (List.mem_cons_self _ _))
    simp only [List.map_cons, List.nodup_cons] at hnd
    have hrec := ih (fun s => P s ∨ s = t) (writerStep st (t, f t)) hstep
      (fun p hp => hvals p (List.mem_cons_of_mem _ hp)) hnd.2 ?_
    · refine writerInv_congr f _ _ _ ?_ hrec
      intro s
      simp only [List.map_cons, List.mem_cons]
      tauto
    · intro p hp
      rintro (hPp | hpt)
      · exact hP p (List.mem_cons_of_mem _ hp) hPp
      · exact hnd.1 (hpt ▸ List.mem_map_of_mem Prod.fst hp)

/-- C1: each parsed request is assigned the next sequence number from the
per-connection counter (a contiguous range), and for any completion order
of the dispatch tasks — any permutation of the sequenced responses — the
writer composes the responses into the egress buffer in sequence order,
i.e. in request-arrival order. -/
theorem c1_responses_emitted_in_request_order {R : Type} (n : Nat)
    (resp : Nat → R) (arr : List (Nat × R))
    (hperm : arr.Perm ((List.range n).map (fun s => (s, resp s)))) :
    (writerRun arr).composed = (List.range n).map (fun s => (s, resp s)) ∧
    ∀ (reqs : List R) (c : Nat),
      (assignSequences c reqs).map Prod.fst = List.range' c reqs.length := by
  refine ⟨?_, assignSequences_map_fst⟩
  have hvals : ∀ p ∈ arr, p.2 = resp p.1 := by
    intro p hp
    have hp2 := hperm.mem_iff.mp hp
    obtain ⟨s, _, hs⟩ := List.mem_map.mp hp2
    rw [← hs]
  have hkeysperm : (arr.map Prod.fst).Perm (List.range n) := by
    have h1 := hperm.map Prod.fst
    rw [List.map_map] at h1
    have h2 : List.map (Prod.fst ∘ fun s => (s, resp s)) (List.range n) =
        List.range n := by
      have hc : (Prod.fst ∘ fun s : Nat => (s, resp s)) = fun s => s := rfl
      rw [hc, List.map_id']
    rw [h2] at h1
    exact h1
  have hnd : (arr.map Prod.fst).Nodup :=
    hkeysperm.nodup_iff.mpr (List.nodup_range n)
  have hmemkeys : ∀ s, s ∈ arr.map Prod.fst ↔ s < n := by
    intro s
    rw [hkeysperm.mem_iff, List.mem_range]
  have hInit : writerInv resp (fun _ => False) ⟨0, [], []⟩ := by
    refine ⟨rfl, by simp, by simp, by simp, by simp, ?_⟩
    intro s hs
    simp at hs
  have hFin := writerFold_inv resp arr (fun _ => False) ⟨0, [], []⟩ hInit
    hvals hnd (by simp)
  have hFin2 : writerInv resp (fun s => s < n) (writerRun arr) := by
    refine writerInv_congr resp _ _ _ ?_ hFin
    intro s
    rw [hmemkeys s]
    simp
  obtain ⟨h1, _, _, _, h5, h6⟩ := hFin2
  have hn : (writerRun arr).next_sequence = n := by
    have hge : ¬ ((writerRun arr).next_sequence < n) := h5
    rcases Nat.lt_or_ge n (writerRun arr).next_sequence with hlt | hle
    · exact absurd (h6 n hlt) (by omega)
    · omega
  rw [h1, hn]

theorem c1_responses_emitted_in_request_order_witness :
    (writerRun [(2, 2), (1, 1), (0, 0)]).composed =
      [(0, 0), (1, 1), (2, 2)] := by
  have h := c1_responses_emitted_in_request_order 3 (fun s => s)
    [(2, 2), (1, 1), (0, 0)] (by decide)
  exact h.1

end MomentoProxy
